import Mathlib

/-!
Verification of the core of an AF_XDP userspace library (UMEM arithmetic,
SPSC ring cursor logic, the two UMEM chunk allocators, the BPF redirect
manager, and ring teardown), shallowly embedded from the Rust sources.

Machine integers are modelled as `Nat` with explicit reductions `% 2^32`
(`u32`) and `% 2^64` (`usize`/`u64`, the target being 64-bit) at the points
where the source performs wrapping arithmetic or casts.  The concurrent
structures (the crossbeam `ArrayQueue`, the atomic bitset) are embedded for
sequential executions: every atomic read-modify-write is executed in
program order with no interleaving, which is the regime the claims about
them address.
-/

namespace Xdrippi

def U32MOD : Nat := 2 ^ 32
def U64MOD : Nat := 2 ^ 64
def U64MAX : Nat := 2 ^ 64 - 1

/-! ## UMEM (src/umem.rs)

`Umem` keeps a chunk size, a chunk count and a base allocation pointer.
Only the metadata and the index/offset arithmetic are relevant here; the
base pointer plays no role in the arithmetic claims. -/

structure Umem where
  chunk_size : Nat
  num_chunks : Nat
deriving Repr, DecidableEq

namespace Umem

/-- `pub const fn memory_size(&self) -> usize { self.chunk_size * self.num_chunks }`
(usize multiplication, wrapping at `2^64` in release builds). -/
def memory_size (u : Umem) : Nat :=
  u.chunk_size * u.num_chunks % U64MOD

/-- `pub const fn chunk_start_offset_for_index(&self, index: usize) -> u64 {
  (self.chunk_size * index) as u64 }` — usize product, cast to u64 (identity
on a 64-bit target up to the wrap already present in the product). -/
def chunk_start_offset_for_index (u : Umem) (index : Nat) : Nat :=
  u.chunk_size * index % U64MOD

/-- `pub const fn chunk_index_for_offset(&self, offset: u64) -> usize {
  offset as usize / self.chunk_size }`. -/
def chunk_index_for_offset (u : Umem) (offset : Nat) : Nat :=
  offset % U64MOD / u.chunk_size

/-- The constructor `Umem::new` accepts only chunk sizes 2048 and 4096
(it panics on anything else). -/
def valid_chunk_size (u : Umem) : Prop :=
  u.chunk_size = 2048 ∨ u.chunk_size = 4096

end Umem

/-! ## Ring (src/ring.rs)

`XDPRing` holds a mapped size, an element count, two 32-bit atomic cursors
and an `N`-element descriptor array.  We model the offset-typed (`u64`)
specialisation: the descriptor array is a `List Nat` of `u64` values, the
cursors are the stored 32-bit values, and every cursor write reduces
`% 2^32` (release-mode wrapping `u32` arithmetic). -/

structure XDPRing where
  num_elements : Nat
  producer : Nat
  consumer : Nat
  descriptors : List Nat
deriving Repr, DecidableEq

namespace XDPRing

/-- `const fn num_elements_mask(&self) -> u32 { self.num_elements as u32 - 1 }`
— the `usize → u32` cast truncates and the subtraction wraps. -/
def num_elements_mask (s : XDPRing) : Nat :=
  (s.num_elements % U32MOD + (U32MOD - 1)) % U32MOD

/-- `self.consumer_index.load(Relaxed) & self.num_elements_mask()`. -/
def get_consumer_index (s : XDPRing) : Nat :=
  s.consumer &&& s.num_elements_mask

/-- `self.producer_index.load(Relaxed) & self.num_elements_mask()`. -/
def get_producer_index (s : XDPRing) : Nat :=
  s.producer &&& s.num_elements_mask

/-- `self.consumer_index.fetch_add(1, Relaxed)`. -/
def advance_consumer_index (s : XDPRing) : XDPRing :=
  { s with consumer := (s.consumer + 1) % U32MOD }

/-- `self.producer_index.fetch_add(1, Relaxed)`. -/
def advance_producer_index (s : XDPRing) : XDPRing :=
  { s with producer := (s.producer + 1) % U32MOD }

/-- `self.get_consumer_index() != self.get_producer_index()`. -/
def can_consume (s : XDPRing) : Bool :=
  s.get_consumer_index != s.get_producer_index

/-- `((self.get_producer_index() + 1) & self.num_elements_mask()) !=
self.get_consumer_index()` — the `+ 1` is wrapping `u32` addition. -/
def can_produce (s : XDPRing) : Bool :=
  ((s.get_producer_index + 1) % U32MOD &&& s.num_elements_mask)
    != s.get_consumer_index

/-- `*self.get_nth_descriptor(index)` on the `u64` ring. -/
def get_nth_umem_offset (s : XDPRing) (index : Nat) : Nat :=
  s.descriptors.getD index 0

/-- `*self.get_nth_descriptor_mut(index) = umem_offset` on the `u64` ring. -/
def set_nth_umem_offset (s : XDPRing) (index : Nat) (umem_offset : Nat) :
    XDPRing :=
  { s with descriptors := s.descriptors.set index umem_offset }

/-- `self.set_nth_umem_offset(self.get_producer_index() as _, umem_offset);
self.advance_producer_index();`. -/
def produce_umem_offset (s : XDPRing) (umem_offset : Nat) : XDPRing :=
  (s.set_nth_umem_offset s.get_producer_index umem_offset).advance_producer_index

/-- Produce a list of offsets in order, one `produce_umem_offset` each. -/
def produceAll (s : XDPRing) (vs : List Nat) : XDPRing :=
  vs.foldl produce_umem_offset s

/-- Consume `n` times: each step reads `get_nth_umem_offset` at
`get_consumer_index` and then calls `advance_consumer_index`; the list of
observed offsets is returned. -/
def consumeN : Nat → XDPRing → List Nat
  | 0, _ => []
  | n + 1, s =>
    s.get_nth_umem_offset s.get_consumer_index :: consumeN n s.advance_consumer_index

end XDPRing

/-! ## Ring construction and teardown address arithmetic (src/ring.rs)

`XDPRing::new` memory-maps `mmap_size = sock_offsets.desc + sizeof(D) * N`
bytes and keeps pointers `mmap_base + producer`, `mmap_base + consumer`,
`mmap_base + desc` into the mapping.  `Drop` calls
`munmap(self.descriptors.as_mut_ptr(), self.mmap_size)`.  Addresses are
modelled as plain numbers. -/

structure XdpRingOffsets where
  producer : Nat
  consumer : Nat
  desc : Nat
deriving Repr, DecidableEq

structure RingMapping where
  mmap_size : Nat
  producer_addr : Nat
  consumer_addr : Nat
  descriptors_addr : Nat
deriving Repr, DecidableEq

/-- The address arithmetic of `XDPRing::new`, given the base address the
`mmap` call returned. -/
def ringNewMapping (num_elements sizeD mmap_base : Nat)
    (off : XdpRingOffsets) : RingMapping :=
  { mmap_size := off.desc + sizeD * num_elements
    producer_addr := mmap_base + off.producer
    consumer_addr := mmap_base + off.consumer
    descriptors_addr := mmap_base + off.desc }

/-- The `(addr, len)` pair passed to `munmap` by `impl Drop for XDPRing`:
`let ptr = self.descriptors.as_mut_ptr(); libc::munmap(ptr.cast(), self.mmap_size)`. -/
def ringDropMunmapArgs (m : RingMapping) : Nat × Nat :=
  (m.descriptors_addr, m.mmap_size)

/-! ## Bounded-queue allocator (src/umem_allocator/queue.rs)

`ConcurrentQueueAllocator` wraps a crossbeam `ArrayQueue<usize>` of
capacity `umem.num_chunks()`, pre-populated with `0..num_chunks`.  The
queue is embedded as a FIFO list (front = next pop, push appends at the
back, push fails when `len == capacity`). -/

structure ConcurrentQueueAllocator where
  umem_num_chunks : Nat
  capacity : Nat
  available_chunks : List Nat
deriving Repr, DecidableEq

namespace ConcurrentQueueAllocator

/-- `for_umem`: `ArrayQueue::new(umem.num_chunks())` then
`for i in 0..umem.num_chunks() { available_chunks.push(i).unwrap(); }`. -/
def for_umem (u : Umem) : ConcurrentQueueAllocator :=
  { umem_num_chunks := u.num_chunks
    capacity := u.num_chunks
    available_chunks := List.range u.num_chunks }

/-- `fn try_allocate(&self) -> Option<usize> { self.available_chunks.pop() }`. -/
def try_allocate (s : ConcurrentQueueAllocator) :
    Option Nat × ConcurrentQueueAllocator :=
  match s.available_chunks with
  | [] => (none, s)
  | x :: rest => (some x, { s with available_chunks := rest })

/-- `try_release`: fail if `index >= self.umem.num_chunks()`, then
`self.available_chunks.push(index)` which fails when the queue is full. -/
def try_release (s : ConcurrentQueueAllocator) (index : Nat) :
    Bool × ConcurrentQueueAllocator :=
  if s.umem_num_chunks ≤ index then (false, s)
  else if s.capacity ≤ s.available_chunks.length then (false, s)
  else (true, { s with available_chunks := s.available_chunks ++ [index] })

/-- `fn num_allocated(&self) -> Option<usize> { Some(self.available_chunks.len()) }`. -/
def num_allocated (s : ConcurrentQueueAllocator) : Option Nat :=
  some s.available_chunks.length

/-- `fn num_available(&self) -> Option<usize> {
  Some(self.available_chunks.capacity() - self.available_chunks.len()) }`. -/
def num_available (s : ConcurrentQueueAllocator) : Option Nat :=
  some (s.capacity - s.available_chunks.length)

/-- Run `n` consecutive `try_allocate` calls, collecting the results. -/
def allocRun : Nat → ConcurrentQueueAllocator →
    List (Option Nat) × ConcurrentQueueAllocator
  | 0, s => ([], s)
  | n + 1, s =>
    let (r, s1) := try_allocate s
    let (rs, s2) := allocRun n s1
    (r :: rs, s2)

end ConcurrentQueueAllocator

/-! ## Atomic bitset allocator (src/umem_allocator/atomics.rs)

`AtomicBitSetAllocator` keeps `num_chunks / 64` 64-bit words (bit `b` of
word `w`, MSB-first, set means index `64*w + b` is allocated) plus a
`next_word_hint`.  In the sequential embedding the weak compare-and-swap in
`try_allocate` always succeeds on the observed word, so the retry loop
collapses to its first iteration. -/

/-- `u64::leading_ones`: the number of leading one bits of a 64-bit word,
i.e. the smallest `b < 64` whose MSB-first bit `b` is clear (64 for an
all-ones word). -/
def leadingOnes64 (w : Nat) : Nat :=
  (((List.range 64).find? fun b => ! w.testBit (63 - b)).getD 64)

structure AtomicBitSetAllocator where
  storage : List Nat
  next_word_hint : Nat
deriving Repr, DecidableEq

namespace AtomicBitSetAllocator

/-- `for_umem`: asserts `num_chunks % 64 == 0` and creates
`num_chunks / 64` zeroed words with a zero hint. -/
def for_umem (u : Umem) : AtomicBitSetAllocator :=
  { storage := List.replicate (u.num_chunks / 64) 0
    next_word_hint := 0 }

/-- MSB-first bit test: index `j` is free iff bit `63 - j % 64` of word
`j / 64` is clear. -/
def is_free (s : AtomicBitSetAllocator) (j : Nat) : Bool :=
  ! (s.storage.getD (j / 64) 0).testBit (63 - j % 64)

/-- `try_allocate`, sequentially: circularly scan words starting at
`next_word_hint`, skip all-ones words; on the first other word set the bit
at `leading_ones`, lower the hint with `fetch_min` (to `w + 1 mod W` when
the word filled up, else to `w`), and return `64*w + b`. -/
def try_allocate (s : AtomicBitSetAllocator) :
    Option Nat × AtomicBitSetAllocator :=
  let W := s.storage.length
  match (List.range W).find?
      (fun off => s.storage.getD ((s.next_word_hint + off) % W) 0 != U64MAX) with
  | none => (none, s)
  | some off =>
    let word_index := (s.next_word_hint + off) % W
    let word := s.storage.getD word_index 0
    let bit_index := leadingOnes64 word
    let allocated_word := word ||| 2 ^ (63 - bit_index)
    let hint :=
      if allocated_word = U64MAX then
        min s.next_word_hint ((word_index + 1) % W)
      else
        min s.next_word_hint word_index
    (some (word_index * 64 + bit_index),
      { storage := s.storage.set word_index allocated_word
        next_word_hint := hint })

/-- `try_release`: bounds-check the word index, `fetch_and` with the
complement `!mask = u64::MAX ^ mask`, `fetch_min` the hint to this word,
and report whether the bit was previously set. -/
def try_release (s : AtomicBitSetAllocator) (index : Nat) :
    Bool × AtomicBitSetAllocator :=
  let word_index := index / 64
  let bit_index := index - word_index * 64
  if s.storage.length ≤ word_index then (false, s)
  else
    let mask := 2 ^ (63 - bit_index)
    let neg_mask := U64MAX ^^^ mask
    let prev_value := s.storage.getD word_index 0
    (decide (0 < prev_value &&& mask),
      { storage := s.storage.set word_index (prev_value &&& neg_mask)
        next_word_hint := min s.next_word_hint word_index })

/-- Iterate `try_allocate` `n` times, keeping only the state. -/
def allocN : Nat → AtomicBitSetAllocator → AtomicBitSetAllocator
  | 0, s => s
  | n + 1, s => allocN n (try_allocate s).2

end AtomicBitSetAllocator

/-- A sequential allocator call: `try_allocate` or `try_release index`. -/
inductive AllocatorOp where
  | allocate : AllocatorOp
  | release : Nat → AllocatorOp
deriving Repr, DecidableEq

/-- Run a sequence of allocator calls on the atomic bitset allocator. -/
def runOps (ops : List AllocatorOp) (s : AtomicBitSetAllocator) :
    AtomicBitSetAllocator :=
  ops.foldl
    (fun s op =>
      match op with
      | .allocate => s.try_allocate.2
      | .release i => (s.try_release i).2)
    s

/-! ## BPF redirect manager (src/bpf.rs)

`BPFRedirectManager` owns a loaded BPF object; `add_redirect` looks up the
map named `xsks_map` among the object's maps and, if found, upserts
`queue_id.to_ne_bytes() → socket_fd.as_raw_fd().to_ne_bytes()` with
`MapFlags::ANY`, calling `.unwrap()` on the update result.  Native byte
order is fixed to little-endian (the 64-bit Linux targets of the crate);
the fallible kernel map update is a boolean parameter of the model, and a
`panic`/`unwrap` abort is the `panicked` outcome. -/

structure BpfMap where
  name : String
  entries : List (List Nat × List Nat)
deriving Repr, DecidableEq

structure BpfObject where
  maps : List BpfMap
deriving Repr, DecidableEq

inductive BpfCallResult where
  | ok : BpfObject → BpfCallResult
  | panicked : BpfCallResult
deriving Repr, DecidableEq

/-- `u32::to_ne_bytes` on a little-endian target. -/
def u32_to_ne_bytes (x : Nat) : List Nat :=
  [x % 256, x / 2 ^ 8 % 256, x / 2 ^ 16 % 256, x / 2 ^ 24 % 256]

/-- `i32::to_ne_bytes` on a little-endian target (two's complement). -/
def i32_to_ne_bytes (x : Int) : List Nat :=
  u32_to_ne_bytes (x % 2 ^ 32).toNat

/-- Upsert semantics of `map.update(key, value, MapFlags::ANY)`. -/
def mapUpsert (entries : List (List Nat × List Nat)) (k v : List Nat) :
    List (List Nat × List Nat) :=
  if entries.any (fun e => e.1 == k) then
    entries.map (fun e => if e.1 == k then (k, v) else e)
  else
    entries ++ [(k, v)]

/-- Apply the upsert to the first map named `xsks_map` (the one
`maps_mut().find(...)` returns). -/
def updateXsksMap : List BpfMap → List Nat → List Nat → List BpfMap
  | [], _, _ => []
  | m :: rest, k, v =>
    if m.name == "xsks_map" then
      { m with entries := mapUpsert m.entries k v } :: rest
    else
      m :: updateXsksMap rest k v

/-- `pub fn add_redirect(&mut self, queue_id: u32, socket_fd: impl AsRawFd)`:
`if let Some(map) = self.bpf_object.maps_mut().find(|x| x.name() == "xsks_map")
 { map.update(&queue_id.to_ne_bytes(), &socket_fd.as_raw_fd().to_ne_bytes(),
   MapFlags::ANY).unwrap(); }` — when no map matches, the `if let` falls
through and the method returns having done nothing. -/
def add_redirect (obj : BpfObject) (queue_id : Nat) (socket_fd : Int)
    (update_succeeds : Bool) : BpfCallResult :=
  match obj.maps.find? (fun m => m.name == "xsks_map") with
  | some _ =>
    if update_succeeds then
      .ok ⟨updateXsksMap obj.maps (u32_to_ne_bytes queue_id)
        (i32_to_ne_bytes socket_fd)⟩
    else
      .panicked
  | none => .ok obj

/-! # Theorems -/

/-! ## C3 — UMEM index/offset round-trip -/

/-- C3: the UMEM index/offset arithmetic is a bijection between chunk
indices below `num_chunks` and chunk-aligned offsets below `memory_size`:
`chunk_index_for_offset (chunk_start_offset_for_index i) = i` for every
`i < num_chunks`, and `chunk_start_offset_for_index (chunk_index_for_offset
off) = off` for every chunk-aligned `off < memory_size`.  The UMEM is one
the constructor accepts (chunk size 2048 or 4096) whose byte size does not
overflow `usize`. -/
theorem umem_offset_index_roundtrip (u : Umem)
    (hcs : u.valid_chunk_size)
    (hov : u.chunk_size * u.num_chunks < U64MOD) :
    (∀ i, i < u.num_chunks →
      u.chunk_index_for_offset (u.chunk_start_offset_for_index i) = i) ∧
    (∀ off, off < u.memory_size → off % u.chunk_size = 0 →
      u.chunk_start_offset_for_index (u.chunk_index_for_offset off) = off) := by
  have hpos : 0 < u.chunk_size := by
    rcases hcs with h | h <;> simp [h]
  constructor
  · intro i hi
    have hlt : u.chunk_size * i < U64MOD :=
      lt_of_le_of_lt (Nat.mul_le_mul_left _ (Nat.le_of_lt hi)) hov
    unfold Umem.chunk_index_for_offset Umem.chunk_start_offset_for_index
    rw [Nat.mod_eq_of_lt hlt, Nat.mod_eq_of_lt hlt,
      Nat.mul_div_cancel_left _ hpos]
  · intro off hoff halign
    have hms : u.memory_size = u.chunk_size * u.num_chunks := by
      unfold Umem.memory_size
      exact Nat.mod_eq_of_lt hov
    have hofflt : off < U64MOD := lt_trans (hms ▸ hoff) hov
    unfold Umem.chunk_start_offset_for_index Umem.chunk_index_for_offset
    rw [Nat.mod_eq_of_lt hofflt, Nat.mul_div_cancel' ⟨off / u.chunk_size, ?_⟩,
      Nat.mod_eq_of_lt hofflt]
    conv_lhs => rw [← Nat.div_add_mod off u.chunk_size]
    rw [halign, Nat.add_zero]

/-- Witness for `umem_offset_index_roundtrip`: a 2048-byte-chunk UMEM of 4
chunks; index 3 round-trips, and the aligned offset 4096 round-trips. -/
theorem umem_offset_index_roundtrip_witness :
    (Umem.mk 2048 4).valid_chunk_size ∧
    2048 * 4 < U64MOD ∧
    (Umem.mk 2048 4).chunk_index_for_offset
      ((Umem.mk 2048 4).chunk_start_offset_for_index 3) = 3 ∧
    (Umem.mk 2048 4).chunk_start_offset_for_index
      ((Umem.mk 2048 4).chunk_index_for_offset 4096) = 4096 := by
  refine ⟨Or.inl rfl, by decide, ?_, ?_⟩
  · exact (umem_offset_index_roundtrip (Umem.mk 2048 4) (Or.inl rfl)
      (by decide)).1 3 (by decide)
  · exact (umem_offset_index_roundtrip (Umem.mk 2048 4) (Or.inl rfl)
      (by decide)).2 4096 (by decide) (by decide)

/-! ## Ring cursor lemmas and C2 / C10 -/

/-- For `N = 2^k` with `k ≤ 32`, the wrapping-`u32` mask computation yields
`2^k - 1`. -/
theorem num_elements_mask_eq (s : XDPRing) (k : Nat) (hk : k ≤ 32)
    (hN : s.num_elements = 2 ^ k) : s.num_elements_mask = 2 ^ k - 1 := by
  unfold XDPRing.num_elements_mask U32MOD
  rw [hN]
  rcases Nat.lt_or_ge k 32 with hlt | hge
  · have h1 : (2 : Nat) ^ k < 2 ^ 32 := Nat.pow_lt_pow_right (by norm_num) hlt
    have h2 : (1 : Nat) ≤ 2 ^ k := Nat.one_le_two_pow
    rw [Nat.mod_eq_of_lt h1]
    have h3 : 2 ^ k + (2 ^ 32 - 1) = 2 ^ 32 + (2 ^ k - 1) := by omega
    rw [h3, Nat.add_mod_left, Nat.mod_eq_of_lt (by omega)]
  · have hke : k = 32 := Nat.le_antisymm hk hge
    subst hke
    rw [Nat.mod_self, Nat.zero_add, Nat.mod_eq_of_lt (by omega)]

theorem get_consumer_index_eq (s : XDPRing) (k : Nat) (hk : k ≤ 32)
    (hN : s.num_elements = 2 ^ k) : s.get_consumer_index = s.consumer % 2 ^ k := by
  unfold XDPRing.get_consumer_index
  rw [num_elements_mask_eq s k hk hN, Nat.and_pow_two_sub_one_eq_mod]

theorem get_producer_index_eq (s : XDPRing) (k : Nat) (hk : k ≤ 32)
    (hN : s.num_elements = 2 ^ k) : s.get_producer_index = s.producer % 2 ^ k := by
  unfold XDPRing.get_producer_index
  rw [num_elements_mask_eq s k hk hN, Nat.and_pow_two_sub_one_eq_mod]

/-- `(a % 2^32 + b) % 2^k = (a + b) % 2^k` whenever `k ≤ 32`. -/
theorem mod_u32_add_mod_pow (k : Nat) (hk : k ≤ 32) (a b : Nat) :
    (a % U32MOD + b) % 2 ^ k = (a + b) % 2 ^ k := by
  have hdvd : (2 : Nat) ^ k ∣ U32MOD := Nat.pow_dvd_pow 2 hk
  rw [Nat.add_mod (a % U32MOD) b, Nat.mod_mod_of_dvd a hdvd, ← Nat.add_mod]

/-- C2: for every power-of-two-sized ring and any 32-bit cursor values,
`can_consume` is true iff the masked cursors differ and `can_produce` is
true iff `(producer + 1) & (N-1)` differs from `consumer & (N-1)`. -/
theorem ring_can_consume_can_produce_iff (s : XDPRing) (k : Nat) (hk : k ≤ 32)
    (hN : s.num_elements = 2 ^ k)
    (_hp : s.producer < U32MOD) (_hc : s.consumer < U32MOD) :
    (s.can_consume = true ↔
      s.producer &&& (2 ^ k - 1) ≠ s.consumer &&& (2 ^ k - 1)) ∧
    (s.can_produce = true ↔
      (s.producer + 1) &&& (2 ^ k - 1) ≠ s.consumer &&& (2 ^ k - 1)) := by
  have hci := get_consumer_index_eq s k hk hN
  have hpi := get_producer_index_eq s k hk hN
  constructor
  · unfold XDPRing.can_consume
    rw [hci, hpi, bne_iff_ne, Nat.and_pow_two_sub_one_eq_mod,
      Nat.and_pow_two_sub_one_eq_mod]
    exact ⟨fun h => fun he => h he.symm, fun h => fun he => h he.symm⟩
  · unfold XDPRing.can_produce
    rw [hci, hpi, bne_iff_ne, num_elements_mask_eq s k hk hN,
      Nat.and_pow_two_sub_one_eq_mod, Nat.and_pow_two_sub_one_eq_mod,
      Nat.and_pow_two_sub_one_eq_mod]
    unfold U32MOD
    rw [Nat.mod_mod_of_dvd _ (Nat.pow_dvd_pow 2 hk), Nat.mod_add_mod]

/-- Witness for `ring_can_consume_can_produce_iff`: ring size 8 with
producer cursor 5 and consumer cursor 3. -/
theorem ring_can_consume_can_produce_iff_witness :
    ((XDPRing.mk 8 5 3 []).can_consume = true ↔
      5 &&& (2 ^ 3 - 1) ≠ 3 &&& (2 ^ 3 - 1)) ∧
    ((XDPRing.mk 8 5 3 []).can_produce = true ↔
      (5 + 1) &&& (2 ^ 3 - 1) ≠ 3 &&& (2 ^ 3 - 1)) :=
  ring_can_consume_can_produce_iff (XDPRing.mk 8 5 3 []) 3 (by decide) rfl
    (by decide) (by decide)

/-- C10: on a ring with `num_elements = 1` the mask is 0, so `can_consume`
and `can_produce` are both false in every cursor state; nothing can ever be
produced into or consumed from such a ring under the `can_*` discipline. -/
theorem ring_size_one_never_ready (s : XDPRing) (hN : s.num_elements = 1) :
    s.can_consume = false ∧ s.can_produce = false := by
  have hmask : s.num_elements_mask = 0 := by
    unfold XDPRing.num_elements_mask
    rw [hN]
    decide
  unfold XDPRing.can_consume XDPRing.can_produce
    XDPRing.get_consumer_index XDPRing.get_producer_index
  rw [hmask]
  simp

/-- Witness for `ring_size_one_never_ready`: a one-element ring with
arbitrary cursor values 7 and 42. -/
theorem ring_size_one_never_ready_witness :
    (XDPRing.mk 1 7 42 [0]).can_consume = false ∧
    (XDPRing.mk 1 7 42 [0]).can_produce = false :=
  ring_size_one_never_ready (XDPRing.mk 1 7 42 [0]) rfl

/-! ## C5 — ring teardown -/

/-- C5: evaluation at a concrete ring (base address 4096, offset triple
`{producer := 0, consumer := 64, desc := 128}`, `sizeof(D) = 8`, `N = 8`):
`Drop` passes the full mapped size `desc + sizeof(D) * N` to `munmap`, but
the address it passes is `mmap_base + desc` — an interior pointer — and not
the `mmap_base` the constructor's `mmap` returned. -/
theorem ring_drop_munmap_interior_pointer :
    (ringDropMunmapArgs (ringNewMapping 8 8 4096 (XdpRingOffsets.mk 0 64 128))).2
      = 128 + 8 * 8 ∧
    (ringDropMunmapArgs (ringNewMapping 8 8 4096 (XdpRingOffsets.mk 0 64 128))).1
      = 4096 + 128 ∧
    (ringDropMunmapArgs (ringNewMapping 8 8 4096 (XdpRingOffsets.mk 0 64 128))).1
      ≠ 4096 := by
  decide

/-! ## C4 — ring SPSC FIFO order -/

/-- First-hit characterisation of `find?` over `range n`. -/
theorem find_range_eq_some {p : Nat → Bool} {n k : Nat} (hk : k < n)
    (hbefore : ∀ j, j < k → p j = false) (hp : p k = true) :
    (List.range n).find? p = some k := by
  induction n with
  | zero => omega
  | succ n ih =>
    rw [List.range_succ, List.find?_append]
    rcases Nat.lt_or_ge k n with hlt | hge
    · rw [ih hlt]
      rfl
    · have hkn : k = n := by omega
      subst hkn
      have hnone : (List.range k).find? p = none := by
        rw [List.find?_eq_none]
        intro x hx
        rw [hbefore x (List.mem_range.mp hx)]
        simp
      rw [hnone, Option.none_or]
      simp [hp]

theorem produceAll_nil (s : XDPRing) : XDPRing.produceAll s [] = s := rfl

theorem produceAll_cons (s : XDPRing) (v : Nat) (vs : List Nat) :
    XDPRing.produceAll s (v :: vs) =
      XDPRing.produceAll (s.produce_umem_offset v) vs := rfl

/-- One produce step: the consumer cursor and element count are untouched,
the producer cursor advances by one (wrapping), and the descriptor at the
masked producer index is overwritten. -/
theorem produce_umem_offset_fields (s : XDPRing) (v : Nat) :
    (s.produce_umem_offset v).num_elements = s.num_elements ∧
    (s.produce_umem_offset v).consumer = s.consumer ∧
    (s.produce_umem_offset v).producer = (s.producer + 1) % U32MOD ∧
    (s.produce_umem_offset v).descriptors =
      s.descriptors.set s.get_producer_index v := by
  unfold XDPRing.produce_umem_offset XDPRing.set_nth_umem_offset
    XDPRing.advance_producer_index
  exact ⟨rfl, rfl, rfl, rfl⟩

theorem produceAll_fields (vs : List Nat) (s : XDPRing) :
    (XDPRing.produceAll s vs).num_elements = s.num_elements ∧
    (XDPRing.produceAll s vs).consumer = s.consumer ∧
    (XDPRing.produceAll s vs).descriptors.length = s.descriptors.length := by
  induction vs generalizing s with
  | nil => exact ⟨rfl, rfl, rfl⟩
  | cons v vs ih =>
    rw [produceAll_cons]
    have h1 := produce_umem_offset_fields s v
    obtain ⟨i1, i2, i3⟩ := ih (s.produce_umem_offset v)
    refine ⟨?_, ?_, ?_⟩
    · rw [i1, h1.1]
    · rw [i2, h1.2.1]
    · rw [i3, h1.2.2.2, List.length_set]

/-- Descriptor positions outside the produced window keep their value. -/
theorem produceAll_getD_untouched (k : Nat) (hk : k ≤ 32) (vs : List Nat)
    (s : XDPRing) (hN : s.num_elements = 2 ^ k) (idx : Nat)
    (hidx : ∀ j, j < vs.length → idx ≠ (s.producer + j) % 2 ^ k) :
    (XDPRing.produceAll s vs).descriptors.getD idx 0 =
      s.descriptors.getD idx 0 := by
  induction vs generalizing s with
  | nil => rfl
  | cons v vs ih =>
    rw [produceAll_cons]
    have hf := produce_umem_offset_fields s v
    have hN' : (s.produce_umem_offset v).num_elements = 2 ^ k := by
      rw [hf.1, hN]
    have hidx' : ∀ j, j < vs.length →
        idx ≠ ((s.produce_umem_offset v).producer + j) % 2 ^ k := by
      intro j hj
      rw [hf.2.2.1, mod_u32_add_mod_pow k hk,
        show s.producer + 1 + j = s.producer + (j + 1) by omega]
      exact hidx (j + 1) (by simp only [List.length_cons]; omega)
    rw [ih (s.produce_umem_offset v) hN' hidx', hf.2.2.2]
    have hne : s.get_producer_index ≠ idx := by
      have h0 := hidx 0 (by simp only [List.length_cons]; omega)
      rw [get_producer_index_eq s k hk hN]
      intro he
      exact h0 (by rw [Nat.add_zero]; exact he.symm)
    rw [List.getD_eq_getElem?_getD, List.getD_eq_getElem?_getD,
      List.getElem?_set_ne hne]

/-- After producing `vs` in order from producer cursor `p`, the descriptor
at position `(p + j) % N` holds `vs[j]`, for every `j < |vs| ≤ N`. -/
theorem produceAll_getD_written (k : Nat) (hk : k ≤ 32) (vs : List Nat)
    (s : XDPRing) (hN : s.num_elements = 2 ^ k)
    (hlen : s.descriptors.length = 2 ^ k) (hvs : vs.length ≤ 2 ^ k)
    (j : Nat) (hj : j < vs.length) :
    (XDPRing.produceAll s vs).descriptors.getD ((s.producer + j) % 2 ^ k) 0 =
      vs.getD j 0 := by
  induction vs generalizing s j with
  | nil => exact absurd hj (by simp)
  | cons v vs ih =>
    rw [produceAll_cons]
    have hf := produce_umem_offset_fields s v
    have hN' : (s.produce_umem_offset v).num_elements = 2 ^ k := by
      rw [hf.1, hN]
    have hlen' : (s.produce_umem_offset v).descriptors.length = 2 ^ k := by
      rw [hf.2.2.2, List.length_set, hlen]
    have hvs' : vs.length ≤ 2 ^ k := by
      simp only [List.length_cons] at hvs
      omega
    cases j with
    | zero =>
      have huntouched : ∀ j', j' < vs.length →
          (s.producer + 0) % 2 ^ k ≠
            ((s.produce_umem_offset v).producer + j') % 2 ^ k := by
        intro j' hj'
        rw [hf.2.2.1, mod_u32_add_mod_pow k hk,
          show s.producer + 1 + j' = s.producer + (1 + j') by omega]
        intro he
        have hmeq : Nat.ModEq (2 ^ k) (s.producer + 0) (s.producer + (1 + j')) := he
        have h0 : Nat.ModEq (2 ^ k) 0 (1 + j') :=
          Nat.ModEq.add_left_cancel' s.producer hmeq
        have hdvd : 2 ^ k ∣ 1 + j' := (Nat.modEq_zero_iff_dvd).mp h0.symm
        have hle := Nat.le_of_dvd (by omega) hdvd
        have hub : 1 + j' < 2 ^ k := by
          simp only [List.length_cons] at hvs
          omega
        omega
      rw [produceAll_getD_untouched k hk vs (s.produce_umem_offset v) hN'
        ((s.producer + 0) % 2 ^ k) huntouched, hf.2.2.2,
        get_producer_index_eq s k hk hN, Nat.add_zero]
      have hidxlt : s.producer % 2 ^ k < s.descriptors.length := by
        rw [hlen]
        exact Nat.mod_lt _ (Nat.pos_pow_of_pos k (by omega))
      simp [List.getD_eq_getElem?_getD, List.getElem?_set_self hidxlt]
    | succ j' =>
      have hj' : j' < vs.length := by
        simp only [List.length_cons] at hj
        omega
      have hpos : (s.producer + (j' + 1)) % 2 ^ k =
          ((s.produce_umem_offset v).producer + j') % 2 ^ k := by
        rw [hf.2.2.1, mod_u32_add_mod_pow k hk,
          show s.producer + 1 + j' = s.producer + (j' + 1) by omega]
      rw [hpos, List.getD_cons_succ]
      exact ih (s.produce_umem_offset v) hN' hlen' hvs' j' hj'

/-- Consuming `n` times observes the descriptors at positions
`(consumer + j) % N`, `j = 0 .. n-1`, in order. -/
theorem consumeN_eq_map (k : Nat) (hk : k ≤ 32) (n : Nat) (s : XDPRing)
    (hN : s.num_elements = 2 ^ k) :
    XDPRing.consumeN n s =
      (List.range n).map
        (fun j => s.descriptors.getD ((s.consumer + j) % 2 ^ k) 0) := by
  induction n generalizing s with
  | zero => rfl
  | succ n ih =>
    have hadv : s.advance_consumer_index.num_elements = 2 ^ k := hN
    have hstep : XDPRing.consumeN (n + 1) s =
        s.get_nth_umem_offset s.get_consumer_index ::
          XDPRing.consumeN n s.advance_consumer_index := rfl
    rw [hstep, ih s.advance_consumer_index hadv, List.range_succ_eq_map,
      List.map_cons, List.map_map]
    congr 1
    · unfold XDPRing.get_nth_umem_offset
      rw [get_consumer_index_eq s k hk hN, Nat.add_zero]
    · apply List.map_congr_left
      intro a _
      show s.descriptors.getD (((s.consumer + 1) % U32MOD + a) % 2 ^ k) 0 =
        s.descriptors.getD ((s.consumer + (a + 1)) % 2 ^ k) 0
      rw [mod_u32_add_mod_pow k hk,
        show s.consumer + 1 + a = s.consumer + (a + 1) by omega]

theorem map_getD_range (vs : List Nat) :
    (List.range vs.length).map (fun j => vs.getD j 0) = vs := by
  apply List.ext_getElem
  · simp
  · intro i h1 h2
    simp [List.getD_eq_getElem?_getD, List.getElem?_eq_getElem h2]

/-- C4: on any power-of-two ring whose producer and consumer cursors are
initially equal, producing the list `vs` (of length at most `N`) via
`produce_umem_offset` and then consuming `|vs|` times — each consume
reading `get_nth_umem_offset` at `get_consumer_index` and then calling
`advance_consumer_index` — observes exactly `vs`, in order.  The concrete
Fill-ring scenario of size 8 with `[0, 2048, 4096, 6144]` is the witness
instance. -/
theorem ring_fifo_order (k : Nat) (hk : k ≤ 32) (s : XDPRing)
    (hN : s.num_elements = 2 ^ k) (hlen : s.descriptors.length = 2 ^ k)
    (heq : s.producer = s.consumer)
    (vs : List Nat) (hvs : vs.length ≤ 2 ^ k) :
    XDPRing.consumeN vs.length (XDPRing.produceAll s vs) = vs := by
  obtain ⟨hne, hcons, hdlen⟩ := produceAll_fields vs s
  rw [consumeN_eq_map k hk vs.length (XDPRing.produceAll s vs)
    (by rw [hne, hN]), hcons, ← heq]
  rw [List.map_congr_left (fun j hj =>
    produceAll_getD_written k hk vs s hN hlen hvs j (List.mem_range.mp hj))]
  exact map_getD_range vs

/-- Witness for `ring_fifo_order`: the spec's Fill-ring round-trip — size 8,
cursors both 0, offsets `[0, 2048, 4096, 6144]` produced then consumed. -/
theorem ring_fifo_order_witness :
    XDPRing.consumeN 4
      (XDPRing.produceAll (XDPRing.mk 8 0 0 (List.replicate 8 0))
        [0, 2048, 4096, 6144]) = [0, 2048, 4096, 6144] :=
  ring_fifo_order 3 (by decide) (XDPRing.mk 8 0 0 (List.replicate 8 0))
    (by decide) (by decide) rfl [0, 2048, 4096, 6144] (by decide)

/-! ## C1 / C6 — bounded-queue allocator -/

/-- C1: evaluation of the queue allocator's counters at a freshly built
allocator over a 2-chunk UMEM (internal queue holds both free indices, so
its length is 2 and nothing is allocated): `num_available` returns
`some (capacity - len) = some 0` and `num_allocated` returns
`some len = some 2` — the two counters are swapped relative to the free
list they are computed from. -/
theorem queue_counters_swapped_eval :
    (ConcurrentQueueAllocator.for_umem (Umem.mk 2048 2)).available_chunks.length
      = 2 ∧
    ConcurrentQueueAllocator.num_available
      (ConcurrentQueueAllocator.for_umem (Umem.mk 2048 2)) = some 0 ∧
    ConcurrentQueueAllocator.num_allocated
      (ConcurrentQueueAllocator.for_umem (Umem.mk 2048 2)) = some 2 ∧
    ConcurrentQueueAllocator.num_available
      (ConcurrentQueueAllocator.for_umem (Umem.mk 2048 2)) ≠
      some (ConcurrentQueueAllocator.for_umem
        (Umem.mk 2048 2)).available_chunks.length := by
  decide

/-- Popping as many times as the queue holds returns its elements in FIFO
order and leaves it empty. -/
theorem allocRun_drains (l : List Nat) :
    ∀ (s : ConcurrentQueueAllocator), s.available_chunks = l →
    ConcurrentQueueAllocator.allocRun l.length s =
      (l.map some, { s with available_chunks := [] }) := by
  induction l with
  | nil =>
    intro s hs
    obtain ⟨n, c, q⟩ := s
    simp only at hs
    subst hs
    rfl
  | cons x xs ih =>
    intro s hs
    obtain ⟨n, c, q⟩ := s
    simp only at hs
    subst hs
    have ihx := ih (ConcurrentQueueAllocator.mk n c xs) rfl
    simp [ConcurrentQueueAllocator.allocRun, ConcurrentQueueAllocator.try_allocate,
      ihx]

set_option maxRecDepth 10000 in
/-- C6: for the default (bounded-queue) allocator over a 1024-chunk UMEM,
1024 consecutive `try_allocate` calls all succeed (returning `0..1023` in
order), the 1025th returns `none`, and after `try_release i` for any
`i < 1024` the release reports success and the next `try_allocate` returns
exactly `some i`. -/
theorem default_allocator_exhaustion :
    (ConcurrentQueueAllocator.allocRun 1024
      (ConcurrentQueueAllocator.for_umem (Umem.mk 2048 1024))).1 =
      (List.range 1024).map some ∧
    (ConcurrentQueueAllocator.try_allocate
      (ConcurrentQueueAllocator.allocRun 1024
        (ConcurrentQueueAllocator.for_umem (Umem.mk 2048 1024))).2).1 = none ∧
    ∀ i, i < 1024 →
      (ConcurrentQueueAllocator.try_release
        (ConcurrentQueueAllocator.allocRun 1024
          (ConcurrentQueueAllocator.for_umem (Umem.mk 2048 1024))).2 i).1
        = true ∧
      (ConcurrentQueueAllocator.try_allocate
        (ConcurrentQueueAllocator.try_release
          (ConcurrentQueueAllocator.allocRun 1024
            (ConcurrentQueueAllocator.for_umem (Umem.mk 2048 1024))).2 i).2).1
        = some i := by
  have hrun := allocRun_drains (List.range 1024)
    (ConcurrentQueueAllocator.for_umem (Umem.mk 2048 1024)) rfl
  rw [List.length_range] at hrun
  refine ⟨by rw [hrun], by rw [hrun]; rfl, ?_⟩
  intro i hi
  rw [hrun]
  have hnle : ¬ (1024 ≤ i) := by omega
  constructor
  · simp [ConcurrentQueueAllocator.try_release,
      ConcurrentQueueAllocator.for_umem, hnle]
  · simp [ConcurrentQueueAllocator.try_release,
      ConcurrentQueueAllocator.for_umem, ConcurrentQueueAllocator.try_allocate,
      hnle]

/-- Witness for `default_allocator_exhaustion`: the release/re-allocate leg
instantiated at index 5. -/
theorem default_allocator_exhaustion_witness :
    (ConcurrentQueueAllocator.try_release
      (ConcurrentQueueAllocator.allocRun 1024
        (ConcurrentQueueAllocator.for_umem (Umem.mk 2048 1024))).2 5).1
      = true ∧
    (ConcurrentQueueAllocator.try_allocate
      (ConcurrentQueueAllocator.try_release
        (ConcurrentQueueAllocator.allocRun 1024
          (ConcurrentQueueAllocator.for_umem (Umem.mk 2048 1024))).2 5).2).1
      = some 5 :=
  default_allocator_exhaustion.2.2 5 (by omega)

/-! ## C7 / C8 — atomic bitset allocator -/

/-- Unfolded form of `try_release` (the `let` bindings inlined). -/
theorem try_release_eq (s : AtomicBitSetAllocator) (i : Nat) :
    s.try_release i =
      if s.storage.length ≤ i / 64 then (false, s)
      else
        (decide (0 < s.storage.getD (i / 64) 0 &&& 2 ^ (63 - (i - i / 64 * 64))),
          { storage := s.storage.set (i / 64)
              (s.storage.getD (i / 64) 0 &&&
                (U64MAX ^^^ 2 ^ (63 - (i - i / 64 * 64))))
            next_word_hint := min s.next_word_hint (i / 64) }) := rfl

/-- When the circular word scan finds a non-full word, `try_allocate`
returns `64 * word_index + leading_ones(word)` for that word. -/
theorem try_allocate_of_find (s : AtomicBitSetAllocator) (off : Nat)
    (hfind : (List.range s.storage.length).find?
      (fun o => s.storage.getD ((s.next_word_hint + o) % s.storage.length) 0
        != U64MAX) = some off) :
    s.try_allocate.1 =
      some ((s.next_word_hint + off) % s.storage.length * 64 +
        leadingOnes64 (s.storage.getD
          ((s.next_word_hint + off) % s.storage.length) 0)) := by
  unfold AtomicBitSetAllocator.try_allocate
  simp only [hfind]

theorem try_allocate_hint_zero (s : AtomicBitSetAllocator)
    (h : s.next_word_hint = 0) : s.try_allocate.2.next_word_hint = 0 := by
  unfold AtomicBitSetAllocator.try_allocate
  cases hfind : (List.range s.storage.length).find?
      (fun o => s.storage.getD ((s.next_word_hint + o) % s.storage.length) 0
        != U64MAX) with
  | none => simp only [hfind]; exact h
  | some off =>
    simp only [hfind]
    split <;> simp [h]

theorem try_release_hint_zero (s : AtomicBitSetAllocator) (i : Nat)
    (h : s.next_word_hint = 0) : (s.try_release i).2.next_word_hint = 0 := by
  rw [try_release_eq]
  split
  · exact h
  · simp [h]

/-- The hint is only ever written through `fetch_min`, so it can never
leave 0 once there. -/
theorem runOps_hint_zero (ops : List AllocatorOp) :
    ∀ s : AtomicBitSetAllocator, s.next_word_hint = 0 →
    (runOps ops s).next_word_hint = 0 := by
  induction ops with
  | nil => intro s h; exact h
  | cons op ops ih =>
    intro s h
    cases op with
    | allocate => exact ih _ (try_allocate_hint_zero s h)
    | release i => exact ih _ (try_release_hint_zero s i h)

/-- C8: for the bitset allocator over a UMEM with at least one 64-chunk
word, `next_word_hint` starts at 0 and after any sequence of
`try_allocate` / `try_release` calls it never exceeds
`num_chunks / 64 - 1`, i.e. it stays strictly below the word count (the
hint is only updated with `fetch_min`, so it in fact stays 0). -/
theorem bitset_hint_invariant (u : Umem) (ops : List AllocatorOp)
    (hW : 0 < u.num_chunks / 64) :
    (AtomicBitSetAllocator.for_umem u).next_word_hint = 0 ∧
    (runOps ops (AtomicBitSetAllocator.for_umem u)).next_word_hint ≤
      u.num_chunks / 64 - 1 ∧
    (runOps ops (AtomicBitSetAllocator.for_umem u)).next_word_hint <
      u.num_chunks / 64 := by
  have h0 : (AtomicBitSetAllocator.for_umem u).next_word_hint = 0 := rfl
  refine ⟨h0, ?_, ?_⟩ <;> rw [runOps_hint_zero ops _ h0] <;> omega

/-- Witness for `bitset_hint_invariant`: a 64-chunk UMEM with one allocate
and one release. -/
theorem bitset_hint_invariant_witness :
    (AtomicBitSetAllocator.for_umem (Umem.mk 2048 64)).next_word_hint = 0 ∧
    (runOps [AllocatorOp.allocate, AllocatorOp.release 0]
      (AtomicBitSetAllocator.for_umem (Umem.mk 2048 64))).next_word_hint ≤
      (Umem.mk 2048 64).num_chunks / 64 - 1 ∧
    (runOps [AllocatorOp.allocate, AllocatorOp.release 0]
      (AtomicBitSetAllocator.for_umem (Umem.mk 2048 64))).next_word_hint <
      (Umem.mk 2048 64).num_chunks / 64 :=
  bitset_hint_invariant (Umem.mk 2048 64)
    [AllocatorOp.allocate, AllocatorOp.release 0] (by decide)

/-- In a sequential execution with hint 0, `try_allocate` returns exactly
the smallest free index, provided one exists in bounds: the scan starts at
word 0, the first non-full word is the word of the smallest free index, and
`leading_ones` selects its MSB-first first clear bit. -/
theorem bitset_try_allocate_min_free (s₀ : AtomicBitSetAllocator) (i : Nat)
    (hwf : ∀ w ∈ s₀.storage, w < U64MOD)
    (hhint : s₀.next_word_hint = 0)
    (hb : i / 64 < s₀.storage.length)
    (hfree : s₀.is_free i = true)
    (hmin : ∀ j, j < i → s₀.is_free j = false) :
    s₀.try_allocate.1 = some i := by
  have hfree' : (s₀.storage.getD (i / 64) 0).testBit (63 - i % 64) = false := by
    unfold AtomicBitSetAllocator.is_free at hfree
    simpa using hfree
  have hfull : ∀ w, w < i / 64 → s₀.storage.getD w 0 = U64MAX := by
    intro w hw
    have hwlt : w < s₀.storage.length := lt_trans hw hb
    have hvlt : s₀.storage.getD w 0 < U64MOD := by
      rw [List.getD_eq_getElem?_getD, List.getElem?_eq_getElem hwlt]
      simp only [Option.getD_some]
      exact hwf _ (List.getElem_mem hwlt)
    apply Nat.eq_of_testBit_eq
    intro n
    rcases Nat.lt_or_ge n 64 with hn | hn
    · have hj : 64 * w + (63 - n) < i := by omega
      have hm := hmin (64 * w + (63 - n)) hj
      unfold AtomicBitSetAllocator.is_free at hm
      have hdiv : (64 * w + (63 - n)) / 64 = w := by omega
      have hmod : (64 * w + (63 - n)) % 64 = 63 - n := by omega
      rw [hdiv, hmod, show 63 - (63 - n) = n by omega] at hm
      have hmb : (s₀.storage.getD w 0).testBit n = true := by
        cases hx : (s₀.storage.getD w 0).testBit n
        · rw [hx] at hm; exact absurd hm (by decide)
        · rfl
      have hmax : U64MAX.testBit n = true := by
        unfold U64MAX
        rw [Nat.testBit_two_pow_sub_one]
        simp [hn]
      rw [hmb, hmax]
    · have h1 : s₀.storage.getD w 0 < 2 ^ n :=
        lt_of_lt_of_le hvlt (Nat.pow_le_pow_right (by omega) hn)
      have h2 : U64MAX < 2 ^ n := by
        have h3 : U64MAX < U64MOD := by
          unfold U64MAX U64MOD
          omega
        exact lt_of_lt_of_le h3 (Nat.pow_le_pow_right (by omega) hn)
      rw [Nat.testBit_lt_two_pow h1, Nat.testBit_lt_two_pow h2]
  have hlead : leadingOnes64 (s₀.storage.getD (i / 64) 0) = i % 64 := by
    unfold leadingOnes64
    rw [find_range_eq_some (k := i % 64) (by omega) ?hbefore ?hp]
    rfl
    case hbefore =>
      intro c hc
      have hj : 64 * (i / 64) + c < i := by omega
      have hm := hmin (64 * (i / 64) + c) hj
      unfold AtomicBitSetAllocator.is_free at hm
      have hdiv : (64 * (i / 64) + c) / 64 = i / 64 := by omega
      have hmod : (64 * (i / 64) + c) % 64 = c := by omega
      rw [hdiv, hmod] at hm
      have hmb : (s₀.storage.getD (i / 64) 0).testBit (63 - c) = true := by
        cases hx : (s₀.storage.getD (i / 64) 0).testBit (63 - c)
        · rw [hx] at hm; exact absurd hm (by decide)
        · rfl
      show (! (s₀.storage.getD (i / 64) 0).testBit (63 - c)) = false
      rw [hmb]
      rfl
    case hp =>
      show (! (s₀.storage.getD (i / 64) 0).testBit (63 - i % 64)) = true
      rw [hfree']
      rfl
  have hfind : (List.range s₀.storage.length).find?
      (fun o => s₀.storage.getD ((s₀.next_word_hint + o) % s₀.storage.length) 0
        != U64MAX) = some (i / 64) := by
    apply find_range_eq_some hb
    · intro j hj
      show (s₀.storage.getD ((s₀.next_word_hint + j) % s₀.storage.length) 0
        != U64MAX) = false
      rw [hhint, Nat.zero_add, Nat.mod_eq_of_lt (lt_trans hj hb), hfull j hj]
      simp
    · show (s₀.storage.getD ((s₀.next_word_hint + i / 64) % s₀.storage.length) 0
        != U64MAX) = true
      rw [hhint, Nat.zero_add, Nat.mod_eq_of_lt hb]
      simp only [bne_iff_ne, ne_eq, decide_eq_true_eq]
      intro he
      rw [he] at hfree'
      have hmax : U64MAX.testBit (63 - i % 64) = true := by
        unfold U64MAX
        rw [Nat.testBit_two_pow_sub_one]
        have : 63 - i % 64 < 64 := by omega
        simp [this]
      rw [hmax] at hfree'
      exact absurd hfree' (by simp)
  rw [try_allocate_of_find s₀ (i / 64) hfind, hhint, Nat.zero_add,
    Nat.mod_eq_of_lt hb, hlead, show i / 64 * 64 + i % 64 = i by omega]

/-- C7 (amended): in a sequential execution whose hint is 0 (as every
reachable state's is), after `try_release i` succeeds the next
`try_allocate` returns `some i` provided no lower-numbered index anywhere
in the allocator — not merely within `i`'s word — is free. -/
theorem bitset_release_then_allocate_min (s : AtomicBitSetAllocator) (i : Nat)
    (hwf : ∀ w ∈ s.storage, w < U64MOD)
    (hhint : s.next_word_hint = 0)
    (hrel : (s.try_release i).1 = true)
    (hmin : ∀ j, j < i → (s.try_release i).2.is_free j = false) :
    ((s.try_release i).2.try_allocate).1 = some i := by
  have hbound : i / 64 < s.storage.length := by
    by_contra hcon
    rw [try_release_eq, if_pos (by omega)] at hrel
    simp at hrel
  have hs2 : (s.try_release i).2 =
      AtomicBitSetAllocator.mk
        (s.storage.set (i / 64)
          (s.storage.getD (i / 64) 0 &&&
            (U64MAX ^^^ 2 ^ (63 - (i - i / 64 * 64)))))
        (min s.next_word_hint (i / 64)) := by
    rw [try_release_eq, if_neg (by omega)]
  have hprev : s.storage.getD (i / 64) 0 < U64MOD := by
    rw [List.getD_eq_getElem?_getD, List.getElem?_eq_getElem hbound]
    simp only [Option.getD_some]
    exact hwf _ (List.getElem_mem hbound)
  refine bitset_try_allocate_min_free _ i ?wf ?hint ?bound ?free hmin
  case wf =>
    rw [hs2]
    intro w hw
    rcases List.mem_or_eq_of_mem_set hw with hmem | heq
    · exact hwf w hmem
    · subst heq
      exact lt_of_le_of_lt Nat.and_le_left hprev
  case hint =>
    rw [hs2]
    simp [hhint]
  case bound =>
    rw [hs2]
    simpa using hbound
  case free =>
    rw [hs2]
    unfold AtomicBitSetAllocator.is_free
    simp only
    rw [List.getD_eq_getElem?_getD, List.getElem?_set_self hbound]
    simp only [Option.getD_some]
    rw [show i - i / 64 * 64 = i % 64 by omega]
    have h1 : U64MAX.testBit (63 - i % 64) = true := by
      unfold U64MAX
      rw [Nat.testBit_two_pow_sub_one]
      have : 63 - i % 64 < 64 := by omega
      simp [this]
    have h2 : Nat.testBit (2 ^ (63 - i % 64)) (63 - i % 64) = true :=
      Nat.testBit_two_pow_self
    simp [Nat.testBit_and, Nat.testBit_xor, h1, h2]

/-- Witness for `bitset_release_then_allocate_min`: one word with only
index 0 allocated; releasing 0 then allocating returns 0. -/
theorem bitset_release_then_allocate_min_witness :
    (((AtomicBitSetAllocator.mk [2 ^ 63] 0).try_release 0).2.try_allocate).1
      = some 0 :=
  bitset_release_then_allocate_min (AtomicBitSetAllocator.mk [2 ^ 63] 0) 0
    (by decide) rfl (by decide) (fun j hj => absurd hj (Nat.not_lt_zero j))

set_option maxRecDepth 100000 in
/-- C7 counterexample: over a 128-chunk (2-word) bitset allocator, allocate
all 128 indices, then release 5 (word 0) and 70 (word 1).  The release of
70 succeeds and no index below 70 inside 70's word is free — the claim's
proviso holds — yet the next `try_allocate` returns `some 5` (the hint is
still 0, so the scan restarts at word 0), not `some 70`. -/
theorem bitset_word_proviso_counterexample :
    (let s0 := AtomicBitSetAllocator.allocN 128
        (AtomicBitSetAllocator.for_umem (Umem.mk 2048 128));
     let r2 := ((s0.try_release 5).2).try_release 70;
     r2.1 = true ∧
       (∀ j, j < 70 → 64 ≤ j → r2.2.is_free j = false) ∧
       r2.2.try_allocate.1 = some 5 ∧ r2.2.try_allocate.1 ≠ some 70) := by
  decide

/-! ## C9 — BPF redirect manager -/

/-- C9 counterexample: on an object with no map named `xsks_map`,
`add_redirect` returns normally with the object unchanged — even with a
failing update oracle nothing panics, because nothing runs; the missing map
is not treated as a fatal configuration error. -/
theorem add_redirect_missing_map_counterexample :
    add_redirect (BpfObject.mk [BpfMap.mk "other_map" []]) 3 7 false
      = BpfCallResult.ok (BpfObject.mk [BpfMap.mk "other_map" []]) ∧
    add_redirect (BpfObject.mk [BpfMap.mk "other_map" []]) 3 7 false
      ≠ BpfCallResult.panicked := by
  decide

/-- C9 (amended): when a map named `xsks_map` is present, `add_redirect`
upserts `queue_id → socket_fd` into it with native-byte-order key and
signed native-order value, and a failing update is fatal (`unwrap`); but
when no such map exists, `add_redirect` silently does nothing rather than
aborting. -/
theorem add_redirect_behavior (obj : BpfObject) (queue_id : Nat)
    (socket_fd : Int) (update_succeeds : Bool) :
    ((obj.maps.find? (fun m => m.name == "xsks_map")).isSome →
      add_redirect obj queue_id socket_fd update_succeeds =
        (if update_succeeds then
          BpfCallResult.ok (BpfObject.mk (updateXsksMap obj.maps
            (u32_to_ne_bytes queue_id) (i32_to_ne_bytes socket_fd)))
        else BpfCallResult.panicked)) ∧
    (obj.maps.find? (fun m => m.name == "xsks_map") = none →
      add_redirect obj queue_id socket_fd update_succeeds =
        BpfCallResult.ok obj) := by
  unfold add_redirect
  cases hfind : obj.maps.find? (fun m => m.name == "xsks_map") with
  | none => exact ⟨fun hsome => absurd hsome (by simp), fun _ => rfl⟩
  | some m => exact ⟨fun _ => rfl, fun hnone => absurd hnone (by simp)⟩

/-- Witness for `add_redirect_behavior`: a present `xsks_map` with a
successful update performs exactly the byte-encoded upsert. -/
theorem add_redirect_behavior_witness :
    add_redirect (BpfObject.mk [BpfMap.mk "xsks_map" []]) 3 7 true
      = BpfCallResult.ok (BpfObject.mk (updateXsksMap
          [BpfMap.mk "xsks_map" []] (u32_to_ne_bytes 3) (i32_to_ne_bytes 7))) :=
  (add_redirect_behavior (BpfObject.mk [BpfMap.mk "xsks_map" []]) 3 7 true).1
    (by decide)

end Xdrippi
